import Mathlib

/-!
Verification of the Huffman coding core in src/huffman.c.

The C code is shallowly embedded: a C `htree*` pointer becomes the inductive
type `htree` whose `null` constructor models the NULL pointer; machine
integers (`unsigned int`, `size_t`, `uint8_t`) become `Nat` (no claim
exercises wrap-around, and builder and checker use the same arithmetic);
NUL-terminated C strings of ASCII bits become `List Char`; fallible or
aborting code returns `Except`/`Option`.

Two collaborators of the core are declared in headers that are not part of
the sources: the alphabet size `NUM_SYMBOLS` (freqtable.h) and the priority
queue `lib/heaps` consumed through `pq_add`/`pq_rem` with the injected strict
comparator `htree_higher_priority`.  Those two are modelled from the spec and
carry a doc comment saying so.
-/

namespace Huffman

/-- Model of the C `htree*` pointer (src/huffman.c:35-40): either NULL or a
node `{symbol_t value; unsigned int frequency; htree *left; htree *right}`. -/
inductive htree : Type where
  | null : htree
  | mk (value : Nat) (frequency : Nat) (left : htree) (right : htree) : htree
deriving DecidableEq

/-- Field read `H->value`.  The `.null` case is a NULL dereference in C; the
default 0 is never observed because every read in the source is guarded. -/
def htree.value : htree → Nat
  | .null => 0
  | .mk v _ _ _ => v

/-- Field read `H->frequency` (guarded in the source, as for `value`). -/
def htree.frequency : htree → Nat
  | .null => 0
  | .mk _ f _ _ => f

/-- Field read `H->left`. -/
def htree.left : htree → htree
  | .null => .null
  | .mk _ _ l _ => l

/-- Field read `H->right`. -/
def htree.right : htree → htree
  | .null => .null
  | .mk _ _ _ r => r

/-- Embeds `is_htree_leaf` (src/huffman.c:49-54): non-NULL, strictly positive
frequency (`H->frequency <= 0` on an `unsigned int` means `= 0`), and both
children NULL. -/
def is_htree_leaf : htree → Bool
  | .null => false
  | .mk _ f l r => decide (0 < f) && decide (l = htree.null) && decide (r = htree.null)

/-- Embeds `is_htree` (src/huffman.c:64-67): non-NULL and either a leaf or a
well-formed interior node.  The interior disjunct inlines `is_htree_interior`
(src/huffman.c:56-62); the recursion matches the C call graph. -/
def is_htree : htree → Bool
  | .null => false
  | .mk v f l r =>
    is_htree_leaf (.mk v f l r) ||
    (is_htree l && is_htree r && decide (f = l.frequency + r.frequency))

/-- Embeds `is_htree_interior` (src/huffman.c:56-62): both children are valid
trees and the frequency is the sum of the children's frequencies.  The
frequency reads are only reached in C when both children passed `is_htree`,
hence are non-NULL. -/
def is_htree_interior : htree → Bool
  | .null => false
  | .mk _ f l r => is_htree l && is_htree r && decide (f = l.frequency + r.frequency)

/-- Specification-side helper: the symbols at the leaves of a tree, in
left-to-right order.  A NULL pointer contributes nothing; a childless node is
a leaf contributing its own symbol. -/
def leafSyms : htree → List Nat
  | .null => []
  | .mk v _ .null .null => [v]
  | .mk _ _ l r => leafSyms l ++ leafSyms r

/-- Specification-side helper: follow a root-to-node path, descending left on
'0' and right on everything else (the decoder's branch test is `== '0'`).
Falling off the tree yields `.null`. -/
def follow : htree → List Char → htree
  | t, [] => t
  | .null, _ :: _ => .null
  | .mk _ _ l r, c :: cs => follow (if c = '0' then l else r) cs

/-! ## Task 2: building Huffman trees from frequency tables -/

/-- Modelled from the spec: `NUM_SYMBOLS` is declared in freqtable.h, which is
not among the sources.  The spec fixes "a fixed, finite alphabet of size
`NUM_SYMBOLS` (byte values, e.g. 0-255)". -/
def NUM_SYMBOLS : Nat := 256

/-- Specification-side helper: the symbols with nonzero frequency, in
increasing order. -/
def nonzeroSymbols (table : Nat → Nat) : List Nat :=
  (List.range NUM_SYMBOLS).filter fun i => decide (0 < table i)

/-- Embeds `htree_higher_priority` (src/huffman.c:76-87): strictly lower
frequency means strictly higher priority. -/
def htree_higher_priority (e1 e2 : htree) : Bool :=
  decide (e1.frequency < e2.frequency)

/-- Modelled from the spec: `pq_rem` of the priority-queue library
`lib/heaps`, which is not among the sources.  The queue is modelled as the
list of its elements in insertion order; remove-highest-priority returns an
element that is maximal under the injected strict comparator
`htree_higher_priority` (i.e. of minimal frequency), resolving ties in favour
of the earliest-inserted element, which the spec allows ("the underlying
queue's own tie-break, typically insertion/structural order").  The remaining
elements keep their relative order. -/
def remMin : htree → List htree → htree × List htree
  | h, [] => (h, [])
  | h, x :: xs =>
    let r := remMin x xs
    if htree_higher_priority r.1 h then (r.1, h :: r.2) else (h, x :: xs)

/-- Embeds `build_pq` (src/huffman.c:90-116): one leaf per symbol with
nonzero frequency, inserted in increasing symbol order (`pq_add` appends to
the modelled queue).  The `char_count < 2` check is performed by the caller
model `build_htree` on the resulting length, which equals `char_count`. -/
def build_pq (table : Nat → Nat) : List htree :=
  (List.range NUM_SYMBOLS).filterMap fun i =>
    if 0 < table i then some (htree.mk i (table i) htree.null htree.null) else none

/-- Root-construction block of `build_htree` (src/huffman.c:162-177): the
first-removed tree goes left when its frequency is lower or equal. -/
def mkRoot (tree1 tree2 : htree) : htree :=
  if tree1.frequency ≤ tree2.frequency then
    htree.mk 0 (tree1.frequency + tree2.frequency) tree1 tree2
  else
    htree.mk 0 (tree1.frequency + tree2.frequency) tree2 tree1

/-- Embeds the merge loop of `build_htree` (src/huffman.c:149-180): remove
two minimal trees, merge them under a fresh root whose frequency is the sum,
re-insert, and stop when a single removal empties the queue.  The `[]` case
is the `assert(false); return NULL` tail (src/huffman.c:183-185), reachable
only on an empty queue. -/
def build_loop (q : List htree) : htree :=
  match q with
  | [] => htree.null
  | h :: t =>
    match hq : remMin h t with
    | (tree1, []) => tree1
    | (tree1, h1 :: t1) =>
      match hr : remMin h1 t1 with
      | (_tree2, q2) => build_loop (q2 ++ [mkRoot tree1 _tree2])
termination_by q.length
decreasing_by
  have key : ∀ (a : htree) (ts : List htree), (remMin a ts).2.length = ts.length := by
    intro a ts
    induction ts generalizing a with
    | nil => rfl
    | cons x xs ih =>
      simp only [remMin]
      split
      · simp [ih x]
      · simp
  have e1 := key h t
  rw [hq] at e1
  have e2 := key h1 t1
  rw [hr] at e2
  simp at e1 e2
  simp only [List.length_append, List.length_cons, List.length_nil]
  omega

/-- Error taxonomy of the builder (spec section 7): the `error(...)` call in
`build_pq` (src/huffman.c:115). -/
inductive BuildError : Type where
  | alphabetTooSmall : BuildError
deriving DecidableEq

/-- Embeds `build_htree` (src/huffman.c:143-186) together with the
`char_count < 2` failure raised inside `build_pq` (src/huffman.c:115):
fewer than 2 distinct nonzero-frequency symbols aborts with
`AlphabetTooSmallError` before any merging. -/
def build_htree (table : Nat → Nat) : Except BuildError htree :=
  let q := build_pq table
  if q.length < 2 then Except.error BuildError.alphabetTooSmall
  else Except.ok (build_loop q)

/-! ## Task 3: decoding -/

/-- Failure modes of the decoder model: `truncated` is the
`error("Invalid code to decode!")` call (src/huffman.c:220); `nullDeref` is a
dereference of a NULL `node` pointer (undefined behaviour in C, reachable
when the root is a leaf); `assertFail` is the `assert(len == array_ind)` in
`parse_code` (src/huffman.c:253). -/
inductive DecodeError : Type where
  | truncated : DecodeError
  | nullDeref : DecodeError
  | assertFail : DecodeError
deriving DecidableEq

/-- Embeds the loop of `find_len` (src/huffman.c:194-224): `H` is the root,
`node` the current position, `res` the count of completed codes.  Each
character moves to the left child on '0' and to the right child otherwise;
reaching a leaf counts one symbol and resets to the root.  After the last
character the position must be the root, else the truncation error fires.
Reading a child of a NULL `node` is the `nullDeref` outcome. -/
def find_len_go (H : htree) : htree → List Char → Nat → Except DecodeError Nat
  | node, [], res => if node = H then Except.ok res else Except.error DecodeError.truncated
  | .null, _ :: _, _ => Except.error DecodeError.nullDeref
  | .mk _ _ l r, c :: cs, res =>
    let node := if c = '0' then l else r
    if is_htree_leaf node then find_len_go H H cs (res + 1)
    else find_len_go H node cs res

/-- Embeds `find_len` (src/huffman.c:194-224). -/
def find_len (H : htree) (code : List Char) : Except DecodeError Nat :=
  find_len_go H H code 0

/-- Embeds the loop of `parse_code` (src/huffman.c:227-254): identical
traversal to `find_len`, but each completed code appends the leaf's symbol to
the output; no end-of-string position check is made here. -/
def parse_code_go (H : htree) : htree → List Char → List Nat → Except DecodeError (List Nat)
  | _, [], acc => Except.ok acc
  | .null, _ :: _, _ => Except.error DecodeError.nullDeref
  | .mk _ _ l r, c :: cs, acc =>
    let node := if c = '0' then l else r
    if is_htree_leaf node then parse_code_go H H cs (acc ++ [node.value])
    else parse_code_go H node cs acc

/-- Embeds `parse_code` (src/huffman.c:227-254) minus the final assertion,
which `decode_src` performs on the returned length. -/
def parse_code (H : htree) (code : List Char) : Except DecodeError (List Nat) :=
  parse_code_go H H code []

/-- Embeds `decode_src` (src/huffman.c:257-271): first pass `find_len` for
the symbol count, second pass `parse_code` for the symbols, then the
`assert(len == array_ind)` of parse_code relating the two. -/
def decode_src (H : htree) (code : List Char) : Except DecodeError (List Nat × Nat) :=
  match find_len H code with
  | Except.error e => Except.error e
  | Except.ok len =>
    match parse_code H code with
    | Except.error e => Except.error e
    | Except.ok res =>
      if res.length = len then Except.ok (res, len) else Except.error DecodeError.assertFail

/-- Specification-side helper: the traversal pointer's position after
consuming all characters, with the same reset-at-leaf discipline as the
decoder ("the traversal pointer is back at the root"). -/
def walk_end (H : htree) : htree → List Char → htree
  | node, [] => node
  | .null, _ :: _ => .null
  | .mk _ _ l r, c :: cs =>
    let node := if c = '0' then l else r
    if is_htree_leaf node then walk_end H H cs else walk_end H node cs

/-! ## Task 4: code tables -/

/-- Model of `codetable_t`: the `xcalloc`-ed array of `NUM_SYMBOLS` bitstring
pointers, NULL-initialised; `none` is a NULL entry. -/
def codetable : Type := Nat → Option (List Char)

/-- Embeds `htree_to_codetable_body` (src/huffman.c:298-324): at a leaf,
store the accumulated path; at an interior node, recurse left with '0'
appended, then right with '1' appended.  On a malformed non-leaf,
non-interior node the C `ASSERT(is_htree_interior(H))` aborts; the model
leaves the table unchanged there (unreachable under `is_htree`). -/
def htree_to_codetable_body : htree → codetable → List Char → codetable
  | .null, table, _ => table
  | .mk v f l r, table, prev =>
    if is_htree_leaf (.mk v f l r) then Function.update table v (some prev)
    else htree_to_codetable_body r
      (htree_to_codetable_body l table (prev ++ ['0'])) (prev ++ ['1'])

/-- Embeds `htree_to_codetable` (src/huffman.c:348-358): NULL-initialised
table, empty starting path. -/
def htree_to_codetable (H : htree) : codetable :=
  htree_to_codetable_body H (fun _ => none) []

/-! ## Task 5: encoding -/

/-- Embeds `get_size` (src/huffman.c:366-379): the sum of the code lengths of
the source symbols.  `strlen` on a NULL table entry is undefined behaviour in
C, modelled as `none`. -/
def get_size (table : codetable) : List Nat → Option Nat
  | [] => some 0
  | s :: rest =>
    match table s, get_size table rest with
    | some bs, some n => some (bs.length + n)
    | _, _ => none

/-- Embeds `encode_src` (src/huffman.c:398-407) with `populate_bstring`
(src/huffman.c:381-395): the concatenation of the per-symbol codes in input
order; `strcpy` from a NULL entry is undefined behaviour, modelled as
`none`. -/
def encode_src (table : codetable) : List Nat → Option (List Char)
  | [] => some []
  | s :: rest =>
    match table s, encode_src table rest with
    | some bs, some tail => some (bs ++ tail)
    | _, _ => none

/-! ## Freeing -/

/-- Outcome of `free_htree` in a DEBUG build (contracts enabled):
`assertViolation` is a failing `ASSERT`/`REQUIRES`. -/
inductive FreeResult : Type where
  | ok : FreeResult
  | assertViolation : FreeResult
deriving DecidableEq

/-- Embeds `free_htree` (src/huffman.c:118-132) under DEBUG contracts and a
memory model in which the defensive read after `free` still sees the node's
contents.  The leaf branch frees the node but does not return, so control
falls through to `ASSERT(is_htree_interior(tree))`, which a leaf (or NULL)
fails; an interior node passes it and recurses into both children. -/
def free_htree : htree → FreeResult
  | .null => FreeResult.assertViolation
  | .mk v f l r =>
    if is_htree_interior (.mk v f l r) then
      match free_htree l with
      | FreeResult.ok => free_htree r
      | e => e
    else FreeResult.assertViolation

/-! ## Task 7: packing and unpacking -/

/-- Embeds `get_res_len` (src/huffman.c:440-446): the byte count
`ceil(bits_len / 8)`. -/
def get_res_len (bits_len : Nat) : Nat :=
  if bits_len % 8 = 0 then bits_len / 8 else bits_len / 8 + 1

/-- Embeds the inner loop of `populate_byte_array` (src/huffman.c:459-471):
consume up to `j` characters (stopping early at the string's end, C's NUL),
adding `placeval` for each '1' and halving `placeval` after each character;
characters other than '0'/'1' add nothing (their `ASSERT` is a DEBUG-only
check). -/
def pack_byte_go : List Char → Nat → Nat → Nat → Nat
  | _, 0, _, byte => byte
  | [], _ + 1, _, byte => byte
  | c :: cs, j + 1, placeval, byte =>
    pack_byte_go cs j (placeval / 2) (byte + if c = '1' then placeval else 0)

/-- Embeds `populate_byte_array` (src/huffman.c:448-476): byte `i` packs the
8 characters starting at offset `8*i`, first character at place value 128. -/
def populate_byte_array (bytes_len : Nat) (bits : List Char) : List Nat :=
  (List.range bytes_len).map fun i => pack_byte_go (bits.drop (i * 8)) 8 128 0

/-- Embeds `pack` (src/huffman.c:479-490). -/
def pack (bits : List Char) : List Nat :=
  populate_byte_array (get_res_len bits.length) bits

/-- Embeds `byte2bit` (src/huffman.c:496-510): the 8 bits of a byte as ASCII
characters, most significant first. -/
def byte2bit (byte : Nat) : List Char :=
  (List.range 8).map fun i => if (byte >>> (8 - i - 1)) &&& 1 = 1 then '1' else '0'

/-- Embeds `unpack` (src/huffman.c:515-532): 8 ASCII bit characters per input
byte, in order. -/
def unpack (c : List Nat) : List Char :=
  (c.map byte2bit).flatten

/-- Specification-side helper for C9: the decoder's effective reading of a
character, '0' for '0' and '1' for everything else. -/
def normalize_bit (c : Char) : Char :=
  if c = '0' then '0' else '1'

/-- Specification-side helper for C8: the spec's description of output byte
`i` of `pack` - the first consumed character at place value 128 (the most
significant position), each subsequent character at the next lower position,
unconsumed positions 0. -/
def msb_byte (s : List Char) (i : Nat) : Nat :=
  ∑ j in Finset.range 8, if s.getD (8 * i + j) '0' = '1' then 2 ^ (7 - j) else 0

/-- Specification-side helper: the value accumulated by `pack_byte_go`
separated from its accumulator. -/
def pbv : List Char → Nat → Nat → Nat
  | _, 0, _ => 0
  | [], _ + 1, _ => 0
  | c :: cs, j + 1, p => (if c = '1' then p else 0) + pbv cs j (p / 2)

/-- Specification-side helper: the leaf symbols of a tree as a multiset. -/
def leafMS (t : htree) : Multiset Nat := (leafSyms t : Multiset Nat)

/-- Specification-side helper: the leaf symbols of all trees in a queue. -/
def queueMS (q : List htree) : Multiset Nat := (q.map leafMS).sum

/-! ## Concrete inputs for witnesses and counterexamples -/

/-- Frequency table of the spec's concrete scenario "aaabbc":
{'a': 3, 'b': 2, 'c': 1}. -/
def tableEx : Nat → Nat :=
  fun i => if i = 97 then 3 else if i = 98 then 2 else if i = 99 then 1 else 0

/-- Symbol sequence "aaabbc". -/
def srcEx : List Nat := [97, 97, 97, 98, 98, 99]

/-- A well-formed tree with interior root: codes a = "0", b = "10",
c = "11". -/
def exTree : htree :=
  htree.mk 0 6 (htree.mk 97 3 htree.null htree.null)
    (htree.mk 0 3 (htree.mk 98 2 htree.null htree.null) (htree.mk 99 1 htree.null htree.null))

/-- A well-formed single-leaf tree. -/
def leafEx : htree := htree.mk 97 1 htree.null htree.null

/-- The spec's concrete 9-character bit-string "000101011". -/
def bitsEx : List Char := ['0', '0', '0', '1', '0', '1', '0', '1', '1']

/-! # Theorems -/

theorem is_htree_eq_leaf_or_interior (t : htree) :
    is_htree t = (is_htree_leaf t || is_htree_interior t) := by
  cases t <;> rfl

theorem remMin_snd_length (h : htree) (t : List htree) :
    (remMin h t).2.length = t.length := by
  induction t generalizing h with
  | nil => rfl
  | cons x xs ih =>
    simp only [remMin]
    split
    · simp [ih x]
    · simp

/-! ## Basic shape lemmas -/

theorem wf_ne_null {t : htree} (h : is_htree t = true) : t ≠ htree.null := by
  intro he
  subst he
  simp [is_htree] at h

theorem leaf_shape {t : htree} (h : is_htree_leaf t = true) :
    ∃ v f, t = htree.mk v f htree.null htree.null ∧ 0 < f := by
  cases t with
  | null => simp [is_htree_leaf] at h
  | mk v f l r =>
    simp only [is_htree_leaf, Bool.and_eq_true, decide_eq_true_eq] at h
    exact ⟨v, f, by rw [h.1.2, h.2], h.1.1⟩

theorem follow_null (p : List Char) : follow htree.null p = htree.null := by
  cases p <;> rfl

theorem wf_children {v f : Nat} {l r : htree}
    (hw : is_htree (htree.mk v f l r) = true)
    (hl : is_htree_leaf (htree.mk v f l r) = false) :
    is_htree l = true ∧ is_htree r = true ∧ f = l.frequency + r.frequency := by
  simp only [is_htree, hl, Bool.false_or, Bool.and_eq_true, decide_eq_true_eq] at hw
  exact ⟨hw.1.1, hw.1.2, hw.2⟩

theorem leaf_of_wf_both_null {v f : Nat}
    (hw : is_htree (htree.mk v f htree.null htree.null) = true) :
    is_htree_leaf (htree.mk v f htree.null htree.null) = true := by
  by_contra hc
  have h := wf_children hw (by revert hc; cases hx : is_htree_leaf (htree.mk v f htree.null htree.null) <;> simp)
  simp [is_htree] at h

theorem leafSyms_of_leaf {t : htree} (h : is_htree_leaf t = true) :
    leafSyms t = [t.value] := by
  obtain ⟨v, f, rfl, -⟩ := leaf_shape h
  rfl

theorem leafSyms_node {v f : Nat} {l r : htree}
    (hl : l ≠ htree.null) :
    leafSyms (htree.mk v f l r) = leafSyms l ++ leafSyms r := by
  cases l with
  | null => exact absurd rfl hl
  | mk a b c d => cases r <;> rfl

theorem leafSyms_node_right {v f : Nat} {l r : htree}
    (hr : r ≠ htree.null) :
    leafSyms (htree.mk v f l r) = leafSyms l ++ leafSyms r := by
  cases r with
  | null => exact absurd rfl hr
  | mk a b c d => cases l with
    | null => rfl
    | mk a2 b2 c2 d2 => rfl

/-- A well-formed tree whose leaf symbols do not form a one-element list
cannot be a leaf; combined with well-formedness this makes its root
interior. -/
theorem not_leaf_of_leafSyms {t : htree} (hw : is_htree t = true)
    (hlen : 2 ≤ (leafSyms t).length) : is_htree_leaf t = false := by
  by_contra hc
  have hc2 : is_htree_leaf t = true := by revert hc; cases hx : is_htree_leaf t <;> simp
  rw [leafSyms_of_leaf hc2] at hlen
  simp at hlen

/-! ## C5: alphabet-too-small error -/

theorem filterMap_ite_eq_map_filter {α β : Type} (p : α → Prop) [DecidablePred p] (f : α → β) :
    ∀ l : List α, (l.filterMap fun i => if p i then some (f i) else none) =
      (l.filter fun i => decide (p i)).map f := by
  intro l
  induction l with
  | nil => rfl
  | cons x xs ih =>
    by_cases hx : p x
    · simp [hx, ih]
    · simp [hx, ih]

theorem build_pq_eq_map (table : Nat → Nat) :
    build_pq table =
      (nonzeroSymbols table).map fun i => htree.mk i (table i) htree.null htree.null := by
  unfold build_pq nonzeroSymbols
  exact filterMap_ite_eq_map_filter _ _ _

theorem build_pq_length (table : Nat → Nat) :
    (build_pq table).length = (nonzeroSymbols table).length := by
  rw [build_pq_eq_map]
  simp

/-- C5: building a tree from a frequency table with fewer than 2 distinct
nonzero-frequency symbols fails with `AlphabetTooSmallError` and produces no
tree; with at least 2 such symbols no `AlphabetTooSmallError` is raised. -/
theorem c5_alphabet_too_small (table : Nat → Nat) :
    build_htree table = Except.error BuildError.alphabetTooSmall ↔
      (nonzeroSymbols table).length < 2 := by
  simp only [build_htree]
  rw [build_pq_length]
  by_cases h2 : (nonzeroSymbols table).length < 2 <;> simp [h2]

/-! ## C10: free_htree on a single leaf -/

/-- C10: the claim says `free_htree` on a well-formed single leaf frees it
and returns without reaching the interior-node assertion.  The code lacks the
`return` after the leaf branch (src/huffman.c:122-125), so control falls
through to `ASSERT(is_htree_interior(tree))` (src/huffman.c:127), which the
(freed) leaf fails.  This theorem evaluates the model at the failing input. -/
theorem c10_free_leaf_hits_assert :
    is_htree leafEx = true ∧ is_htree_leaf leafEx = true ∧
      free_htree leafEx = FreeResult.assertViolation :=
  ⟨rfl, rfl, rfl⟩

/-! ## Decoder traversal lemmas -/

/-- Consuming the root-to-leaf path of a leaf lets the length pass count one
symbol and return to the root: whatever bits follow, the traversal continues
from the root with the counter incremented. -/
theorem walk_code_find (H : htree) :
    ∀ (p : List Char) (t ℓ : htree) (cs : List Char) (res : Nat),
      follow t p = ℓ → is_htree_leaf ℓ = true → p ≠ [] →
      find_len_go H t (p ++ cs) res = find_len_go H H cs (res + 1) := by
  intro p
  induction p with
  | nil => intro t ℓ cs res _ _ hne; exact absurd rfl hne
  | cons c p ih =>
    intro t ℓ cs res hf hleaf _
    cases t with
    | null =>
      rw [follow_null] at hf
      rw [← hf] at hleaf
      simp [is_htree_leaf] at hleaf
    | mk v f l r =>
      simp only [follow] at hf
      cases p with
      | nil =>
        simp only [follow] at hf
        simp only [List.cons_append, List.nil_append, find_len_go, hf, hleaf, if_true]
        rfl
      | cons c2 p2 =>
        have hu : (if c = '0' then l else r) ≠ htree.null := by
          intro he
          rw [he, follow_null] at hf
          rw [← hf] at hleaf
          simp [is_htree_leaf] at hleaf
        have hul : is_htree_leaf (if c = '0' then l else r) = false := by
          cases hx : is_htree_leaf (if c = '0' then l else r)
          · rfl
          · obtain ⟨v2, f2, he, -⟩ := leaf_shape hx
            rw [he] at hf
            simp only [follow] at hf
            rw [show (if c2 = '0' then htree.null else htree.null) = htree.null by simp,
              follow_null] at hf
            rw [← hf] at hleaf
            simp [is_htree_leaf] at hleaf
        simp only [List.cons_append, find_len_go, hul, Bool.false_eq_true, if_false]
        exact ih _ _ cs res hf hleaf (by simp)

/-- Emit-pass analogue of `walk_code_find`: consuming a leaf's path appends
that leaf's symbol and returns to the root. -/
theorem walk_code_parse (H : htree) :
    ∀ (p : List Char) (t ℓ : htree) (cs : List Char) (acc : List Nat),
      follow t p = ℓ → is_htree_leaf ℓ = true → p ≠ [] →
      parse_code_go H t (p ++ cs) acc = parse_code_go H H cs (acc ++ [ℓ.value]) := by
  intro p
  induction p with
  | nil => intro t ℓ cs acc _ _ hne; exact absurd rfl hne
  | cons c p ih =>
    intro t ℓ cs acc hf hleaf _
    cases t with
    | null =>
      rw [follow_null] at hf
      rw [← hf] at hleaf
      simp [is_htree_leaf] at hleaf
    | mk v f l r =>
      simp only [follow] at hf
      cases p with
      | nil =>
        simp only [follow] at hf
        simp only [List.cons_append, List.nil_append, parse_code_go, hf, hleaf, if_true]
        rfl
      | cons c2 p2 =>
        have hul : is_htree_leaf (if c = '0' then l else r) = false := by
          cases hx : is_htree_leaf (if c = '0' then l else r)
          · rfl
          · obtain ⟨v2, f2, he, -⟩ := leaf_shape hx
            rw [he] at hf
            simp only [follow] at hf
            rw [show (if c2 = '0' then htree.null else htree.null) = htree.null by simp,
              follow_null] at hf
            rw [← hf] at hleaf
            simp [is_htree_leaf] at hleaf
        simp only [List.cons_append, parse_code_go, hul, Bool.false_eq_true, if_false]
        exact ih _ _ cs acc hf hleaf (by simp)

/-- On a well-formed tree with interior root, the length pass never
dereferences NULL: starting from any well-formed interior position it either
succeeds (exactly when the traversal pointer ends back at the root) or fails
with the truncation error. -/
theorem find_len_go_spec (H : htree) (hH : is_htree H = true)
    (hHl : is_htree_leaf H = false) :
    ∀ (code : List Char) (node : htree) (res : Nat),
      is_htree node = true → is_htree_leaf node = false →
      (walk_end H node code = H → ∃ n, find_len_go H node code res = Except.ok n) ∧
      (walk_end H node code ≠ H →
        find_len_go H node code res = Except.error DecodeError.truncated) := by
  intro code
  induction code with
  | nil =>
    intro node res _ _
    constructor
    · intro hw
      exact ⟨res, by simp [walk_end] at hw; simp [find_len_go, hw]⟩
    · intro hw
      simp only [walk_end] at hw
      simp [find_len_go, hw]
  | cons c cs ih =>
    intro node res hw hl
    cases node with
    | null => simp [is_htree] at hw
    | mk v f l r =>
      obtain ⟨hwl, hwr, -⟩ := wf_children hw hl
      have hwnext : is_htree (if c = '0' then l else r) = true := by
        split
        · exact hwl
        · exact hwr
      simp only [find_len_go, walk_end]
      by_cases hleaf : is_htree_leaf (if c = '0' then l else r) = true
      · simp only [hleaf, if_true]
        exact ih H (res + 1) hH hHl
      · have hlf : is_htree_leaf (if c = '0' then l else r) = false := by
          revert hleaf
          cases is_htree_leaf (if c = '0' then l else r) <;> simp
        simp only [hlf, Bool.false_eq_true, if_false]
        exact ih (if c = '0' then l else r) res hwnext hlf

/-- Whenever the length pass succeeds, the emit pass succeeds on the same
input, producing exactly as many symbols as the counter says. -/
theorem parse_agrees (H : htree) :
    ∀ (code : List Char) (node : htree) (res : Nat) (acc : List Nat) (n : Nat),
      find_len_go H node code res = Except.ok n →
      ∃ out, parse_code_go H node code acc = Except.ok out ∧
        out.length + res = n + acc.length := by
  intro code
  induction code with
  | nil =>
    intro node res acc n hf
    simp only [find_len_go] at hf
    by_cases hn : node = H
    · rw [if_pos hn] at hf
      cases hf
      exact ⟨acc, by cases node <;> rfl, by omega⟩
    · rw [if_neg hn] at hf
      cases hf
  | cons c cs ih =>
    intro node res acc n hf
    cases node with
    | null => simp [find_len_go] at hf
    | mk v f l r =>
      simp only [find_len_go] at hf
      simp only [parse_code_go]
      by_cases hleaf : is_htree_leaf (if c = '0' then l else r) = true
      · rw [if_pos hleaf] at hf ⊢
        obtain ⟨out, hp, hlen⟩ := ih H (res + 1) (acc ++ [(if c = '0' then l else r).value]) n hf
        exact ⟨out, hp, by simp at hlen; omega⟩
      · rw [if_neg hleaf] at hf ⊢
        exact ih _ res acc n hf

/-! ## C4: truncation detection -/

/-- C4 (amended): for every well-formed tree whose root is an interior node
and every '0'/'1' bit-string, decoding fails with `TruncatedCodeError`
exactly when the traversal pointer is not back at the root after consuming
all bits; on that failure no symbol sequence is returned (the error carries
none), and otherwise decoding succeeds with the counter from the length pass
as the decoded symbol count.  (The original claim, over all well-formed
trees, fails on a single-leaf root: see the counterexample.) -/
theorem c4_truncation_detection (t : htree) (h1 : is_htree t = true)
    (h2 : is_htree_leaf t = false) (code : List Char)
    (hb : ∀ c ∈ code, c = '0' ∨ c = '1') :
    (decode_src t code = Except.error DecodeError.truncated ↔ walk_end t t code ≠ t) ∧
    (walk_end t t code = t →
      ∃ n out, find_len t code = Except.ok n ∧
        decode_src t code = Except.ok (out, n)) := by
  obtain ⟨hsucc, hfail⟩ := find_len_go_spec t h1 h2 code t 0 h1 h2
  have hok : walk_end t t code = t →
      ∃ n out, find_len t code = Except.ok n ∧ decode_src t code = Except.ok (out, n) := by
    intro hw
    obtain ⟨n, hn⟩ := hsucc hw
    obtain ⟨out, hp, hlen⟩ := parse_agrees t code t 0 [] n hn
    refine ⟨n, out, hn, ?_⟩
    simp only [decode_src, find_len, parse_code]
    rw [hn, hp]
    simp at hlen
    simp [hlen]
  refine ⟨⟨?_, ?_⟩, hok⟩
  · intro hd
    intro hw
    obtain ⟨n, out, -, hd2⟩ := hok hw
    rw [hd2] at hd
    cases hd
  · intro hw
    have hf := hfail hw
    simp only [decode_src, find_len]
    rw [hf]

theorem c4_truncation_detection_witness :
    is_htree exTree = true ∧ is_htree_leaf exTree = false ∧
      (∀ c ∈ ['1'], c = '0' ∨ c = '1') ∧
      ((decode_src exTree ['1'] = Except.error DecodeError.truncated ↔
          walk_end exTree exTree ['1'] ≠ exTree) ∧
        (walk_end exTree exTree ['1'] = exTree →
          ∃ n out, find_len exTree ['1'] = Except.ok n ∧
            decode_src exTree ['1'] = Except.ok (out, n))) :=
  ⟨rfl, rfl, by decide, c4_truncation_detection exTree rfl rfl ['1'] (by decide)⟩

/-- C4 counterexample: on the well-formed single-leaf tree, the binary
bit-string "00" makes the decoder dereference NULL (the leaf's left child),
so decoding neither succeeds nor fails with the truncation error - against
the claimed dichotomy over all well-formed trees. -/
theorem c4_counterexample :
    is_htree leafEx = true ∧ (∀ c ∈ ['0', '0'], c = '0' ∨ c = '1') ∧
      decode_src leafEx ['0', '0'] = Except.error DecodeError.nullDeref :=
  ⟨rfl, by decide, rfl⟩

/-! ## C9: non-binary characters -/

theorem find_len_go_normalize (H : htree) :
    ∀ (code : List Char) (node : htree) (res : Nat),
      find_len_go H node code res = find_len_go H node (code.map normalize_bit) res := by
  intro code
  induction code with
  | nil => intro node res; rfl
  | cons c cs ih =>
    intro node res
    cases node with
    | null => rfl
    | mk v f l r =>
      have hc : (if normalize_bit c = '0' then l else r) = (if c = '0' then l else r) := by
        by_cases h : c = '0' <;> simp [normalize_bit, h]
      simp only [List.map_cons, find_len_go, hc]
      by_cases hleaf : is_htree_leaf (if c = '0' then l else r) = true
      · rw [if_pos hleaf, if_pos hleaf]
        exact ih H (res + 1)
      · rw [if_neg hleaf, if_neg hleaf]
        exact ih _ res

theorem parse_code_go_normalize (H : htree) :
    ∀ (code : List Char) (node : htree) (acc : List Nat),
      parse_code_go H node code acc = parse_code_go H node (code.map normalize_bit) acc := by
  intro code
  induction code with
  | nil => intro node acc; rfl
  | cons c cs ih =>
    intro node acc
    cases node with
    | null => rfl
    | mk v f l r =>
      have hc : (if normalize_bit c = '0' then l else r) = (if c = '0' then l else r) := by
        by_cases h : c = '0' <;> simp [normalize_bit, h]
      simp only [List.map_cons, parse_code_go, hc]
      by_cases hleaf : is_htree_leaf (if c = '0' then l else r) = true
      · rw [if_pos hleaf, if_pos hleaf]
        exact ih H _
      · rw [if_neg hleaf, if_neg hleaf]
        exact ih _ acc

/-- C9 (amended): the decoder performs no defensive entry check on the
characters of the bit-string; every character other than '0' is silently
interpreted as a right descent, exactly as '1' is - both passes and
`decode_src` behave identically on a string and on the string with every
non-'0' character replaced by '1'. -/
theorem c9_nonbinary_treated_as_one (H : htree) (code : List Char) :
    find_len H code = find_len H (code.map normalize_bit) ∧
    parse_code H code = parse_code H (code.map normalize_bit) ∧
    decode_src H code = decode_src H (code.map normalize_bit) := by
  refine ⟨find_len_go_normalize H code H 0, parse_code_go_normalize H code H [], ?_⟩
  simp only [decode_src, find_len, parse_code]
  rw [← find_len_go_normalize H code H 0, ← parse_code_go_normalize H code H []]

/-- C9 counterexample: the well-formed tree `exTree` decodes the string "x0",
whose first character is not a bit, successfully to the symbol 'b' (98) -
the 'x' is silently interpreted as a right descent, exactly like '1' -
instead of the string being rejected at the decoder's entry. -/
theorem c9_counterexample :
    is_htree exTree = true ∧ decode_src exTree ['x', '0'] = Except.ok ([98], 1) ∧
      decode_src exTree ['1', '0'] = Except.ok ([98], 1) :=
  ⟨rfl, rfl, rfl⟩

/-! ## Code table lemmas -/

theorem leafSyms_left_subset (v f : Nat) (l r : htree) :
    leafSyms l ⊆ leafSyms (htree.mk v f l r) := by
  cases l with
  | null => simp [leafSyms]
  | mk a b c d =>
    cases r with
    | null => simp [leafSyms]
    | mk a2 b2 c2 d2 => simp [leafSyms]

theorem leafSyms_right_subset (v f : Nat) (l r : htree) :
    leafSyms r ⊆ leafSyms (htree.mk v f l r) := by
  cases l with
  | null =>
    cases r with
    | null => simp [leafSyms]
    | mk a2 b2 c2 d2 => simp [leafSyms]
  | mk a b c d =>
    cases r with
    | null => simp [leafSyms]
    | mk a2 b2 c2 d2 => simp [leafSyms]

/-- Entries at symbols that are not leaf symbols of `t` are untouched by the
table-filling traversal. -/
theorem body_preserves (s : Nat) :
    ∀ (t : htree) (table : codetable) (prev : List Char), s ∉ leafSyms t →
      htree_to_codetable_body t table prev s = table s := by
  intro t
  induction t with
  | null => intro table prev _; rfl
  | mk v f l r ihl ihr =>
    intro table prev hs
    simp only [htree_to_codetable_body]
    by_cases hleaf : is_htree_leaf (htree.mk v f l r) = true
    · rw [if_pos hleaf]
      obtain ⟨v2, f2, he, -⟩ := leaf_shape hleaf
      injection he with h1 h2 h3 h4
      subst h3 h4
      have hv : s ≠ v := by simpa [leafSyms] using hs
      exact Function.update_noteq hv _ _
    · rw [if_neg hleaf]
      have hsl : s ∉ leafSyms l := fun hm => hs (leafSyms_left_subset v f l r hm)
      have hsr : s ∉ leafSyms r := fun hm => hs (leafSyms_right_subset v f l r hm)
      rw [ihr _ _ hsr, ihl _ _ hsl]

/-- Every leaf symbol of a well-formed tree receives an entry: the previous
path followed by a path that leads, in `t`, to a leaf carrying that symbol. -/
theorem body_mem (s : Nat) :
    ∀ (t : htree), is_htree t = true → ∀ (table : codetable) (prev : List Char),
      s ∈ leafSyms t →
      ∃ p ℓ, htree_to_codetable_body t table prev s = some (prev ++ p) ∧
        follow t p = ℓ ∧ is_htree_leaf ℓ = true ∧ ℓ.value = s := by
  intro t
  induction t with
  | null => intro _ table prev hs; simp [leafSyms] at hs
  | mk v f l r ihl ihr =>
    intro hw table prev hs
    simp only [htree_to_codetable_body]
    by_cases hleaf : is_htree_leaf (htree.mk v f l r) = true
    · rw [if_pos hleaf]
      obtain ⟨v2, f2, he, -⟩ := leaf_shape hleaf
      injection he with h1 h2 h3 h4
      subst h3 h4
      have hsv : s = v := by simpa [leafSyms] using hs
      subst hsv
      refine ⟨[], htree.mk s f htree.null htree.null, ?_, rfl, hleaf, rfl⟩
      rw [Function.update_same]
      simp
    · rw [if_neg hleaf]
      obtain ⟨hwl, hwr, -⟩ := wf_children hw (eq_false_of_ne_true hleaf)
      by_cases hsr : s ∈ leafSyms r
      · obtain ⟨p, ℓ, hb, hfol, hl, hv⟩ :=
          ihr hwr (htree_to_codetable_body l table (prev ++ ['0'])) (prev ++ ['1']) hsr
        refine ⟨'1' :: p, ℓ, ?_, ?_, hl, hv⟩
        · rw [hb]
          simp
        · simp only [follow]
          rw [if_neg (by decide)]
          exact hfol
      · have hsl : s ∈ leafSyms l := by
          rw [leafSyms_node (wf_ne_null hwl)] at hs
          rcases List.mem_append.mp hs with h | h
          · exact h
          · exact absurd h hsr
        obtain ⟨p, ℓ, hb, hfol, hl, hv⟩ := ihl hwl table (prev ++ ['0']) hsl
        refine ⟨'0' :: p, ℓ, ?_, ?_, hl, hv⟩
        · rw [body_preserves s r _ _ hsr, hb]
          simp
        · simp only [follow]
          simpa using hfol

/-- Every entry the traversal adds extends the previous path with a path
that leads, in `t`, to a leaf carrying that symbol. -/
theorem body_entries (s : Nat) :
    ∀ (t : htree), is_htree t = true →
      ∀ (table : codetable) (prev : List Char) (p : List Char),
      htree_to_codetable_body t table prev s = some p →
      table s = some p ∨
        ∃ q ℓ, p = prev ++ q ∧ follow t q = ℓ ∧ is_htree_leaf ℓ = true ∧ ℓ.value = s := by
  intro t
  induction t with
  | null => intro _ table prev p h; exact Or.inl h
  | mk v f l r ihl ihr =>
    intro hw table prev p h
    simp only [htree_to_codetable_body] at h
    by_cases hleaf : is_htree_leaf (htree.mk v f l r) = true
    · rw [if_pos hleaf] at h
      by_cases hsv : s = v
      · subst hsv
        rw [Function.update_same] at h
        injection h with h2
        right
        exact ⟨[], htree.mk s f l r, by simp [h2], rfl, hleaf, rfl⟩
      · rw [Function.update_noteq hsv] at h
        exact Or.inl h
    · rw [if_neg hleaf] at h
      obtain ⟨hwl, hwr, -⟩ := wf_children hw (eq_false_of_ne_true hleaf)
      rcases ihr hwr _ _ p h with h2 | ⟨q, ℓ, hpq, hfol, hl, hv⟩
      · rcases ihl hwl table _ p h2 with h3 | ⟨q, ℓ, hpq, hfol, hl, hv⟩
        · exact Or.inl h3
        · right
          refine ⟨'0' :: q, ℓ, by simp [hpq], ?_, hl, hv⟩
          simp only [follow]
          simpa using hfol
      · right
        refine ⟨'1' :: q, ℓ, by simp [hpq], ?_, hl, hv⟩
        simp only [follow]
        rw [if_neg (by decide)]
        exact hfol

/-- A path that reaches a leaf stays inside the tree's leaf symbols. -/
theorem follow_leaf_mem :
    ∀ (t : htree), is_htree t = true → ∀ (q : List Char) (ℓ : htree),
      follow t q = ℓ → is_htree_leaf ℓ = true → ℓ.value ∈ leafSyms t := by
  intro t
  induction t with
  | null => intro hw; simp [is_htree] at hw
  | mk v f l r ihl ihr =>
    intro hw q ℓ hfol hl
    cases q with
    | nil =>
      simp only [follow] at hfol
      rw [← hfol] at hl ⊢
      obtain ⟨v2, f2, he, -⟩ := leaf_shape hl
      injection he with h1 h2 h3 h4
      subst h3 h4
      simp [leafSyms, htree.value]
    | cons c cs =>
      simp only [follow] at hfol
      by_cases hwleaf : is_htree_leaf (htree.mk v f l r) = true
      · obtain ⟨v2, f2, he, -⟩ := leaf_shape hwleaf
        injection he with h1 h2 h3 h4
        subst h3 h4
        rw [show (if c = '0' then htree.null else htree.null) = htree.null by simp,
          follow_null] at hfol
        rw [← hfol] at hl
        simp [is_htree_leaf] at hl
      · obtain ⟨hwl, hwr, -⟩ := wf_children hw (eq_false_of_ne_true hwleaf)
        rw [leafSyms_node (wf_ne_null hwl)]
        by_cases hc : c = '0'
        · rw [if_pos hc] at hfol
          exact List.mem_append.mpr (Or.inl (ihl hwl cs ℓ hfol hl))
        · rw [if_neg hc] at hfol
          exact List.mem_append.mpr (Or.inr (ihr hwr cs ℓ hfol hl))

theorem codetable_entry_mem (t : htree) (hw : is_htree t = true) (s : Nat) (p : List Char)
    (h : htree_to_codetable t s = some p) :
    ∃ ℓ, follow t p = ℓ ∧ is_htree_leaf ℓ = true ∧ ℓ.value = s := by
  rcases body_entries s t hw (fun _ => none) [] p h with h2 | ⟨q, ℓ, hpq, hfol, hl, hv⟩
  · cases h2
  · simp only [List.nil_append] at hpq
    subst hpq
    exact ⟨ℓ, hfol, hl, hv⟩

theorem codetable_covers (t : htree) (hw : is_htree t = true) (s : Nat)
    (hs : s ∈ leafSyms t) :
    ∃ p ℓ, htree_to_codetable t s = some p ∧ follow t p = ℓ ∧
      is_htree_leaf ℓ = true ∧ ℓ.value = s := by
  obtain ⟨p, ℓ, hb, hfol, hl, hv⟩ := body_mem s t hw (fun _ => none) [] hs
  exact ⟨p, ℓ, by simpa using hb, hfol, hl, hv⟩

theorem follow_nonnil_of_interior {t ℓ : htree} (hl2 : is_htree_leaf t = false)
    {p : List Char} (hfol : follow t p = ℓ) (hl : is_htree_leaf ℓ = true) : p ≠ [] := by
  intro hp
  subst hp
  simp only [follow] at hfol
  rw [hfol] at hl2
  rw [hl2] at hl
  cases hl

/-! ## C6: code table coverage -/

/-- C6 (amended): for every well-formed tree whose root is an interior node,
the populated entries of `htree_to_codetable` are exactly the symbols at the
tree's leaves, every such entry is non-empty, and every entry is a
root-to-leaf path - '0' for a left descent, '1' for a right descent - ending
at a leaf carrying that symbol.  (For a single-leaf tree the unique entry is
the empty string, so the original claim's "non-empty entries" reading fails:
see the counterexample.) -/
theorem c6_codetable_coverage (t : htree) (h1 : is_htree t = true)
    (h2 : is_htree_leaf t = false) (s : Nat) :
    ((∃ p, htree_to_codetable t s = some p ∧ p ≠ []) ↔ s ∈ leafSyms t) ∧
    (∀ p, htree_to_codetable t s = some p →
      p ≠ [] ∧ ∃ ℓ, follow t p = ℓ ∧ is_htree_leaf ℓ = true ∧ ℓ.value = s) := by
  have hmain : ∀ p, htree_to_codetable t s = some p →
      p ≠ [] ∧ ∃ ℓ, follow t p = ℓ ∧ is_htree_leaf ℓ = true ∧ ℓ.value = s := by
    intro p hp
    obtain ⟨ℓ, hfol, hl, hv⟩ := codetable_entry_mem t h1 s p hp
    exact ⟨follow_nonnil_of_interior h2 hfol hl, ℓ, hfol, hl, hv⟩
  refine ⟨⟨?_, ?_⟩, hmain⟩
  · rintro ⟨p, hp, -⟩
    obtain ⟨-, ℓ, hfol, hl, hv⟩ := hmain p hp
    rw [← hv]
    exact follow_leaf_mem t h1 p ℓ hfol hl
  · intro hs
    obtain ⟨p, ℓ, hp, hfol, hl, hv⟩ := codetable_covers t h1 s hs
    exact ⟨p, hp, follow_nonnil_of_interior h2 hfol hl⟩

theorem c6_codetable_coverage_witness :
    is_htree exTree = true ∧ is_htree_leaf exTree = false ∧
      (((∃ p, htree_to_codetable exTree 98 = some p ∧ p ≠ []) ↔ 98 ∈ leafSyms exTree) ∧
        (∀ p, htree_to_codetable exTree 98 = some p →
          p ≠ [] ∧ ∃ ℓ, follow exTree p = ℓ ∧ is_htree_leaf ℓ = true ∧ ℓ.value = 98)) :=
  ⟨rfl, rfl, c6_codetable_coverage exTree rfl rfl 98⟩

/-- C6 counterexample: for the well-formed single-leaf tree the produced
table's entry for the unique leaf symbol 97 is the EMPTY string, so the
symbols with a non-empty entry (none) are not exactly the leaf symbols
({97}). -/
theorem c6_counterexample :
    is_htree leafEx = true ∧ leafSyms leafEx = [97] ∧
      htree_to_codetable leafEx 97 = some [] ∧
      ¬∃ p, htree_to_codetable leafEx 97 = some p ∧ p ≠ [] := by
  refine ⟨rfl, rfl, rfl, ?_⟩
  rintro ⟨p, hp, hne⟩
  have h0 : htree_to_codetable leafEx 97 = some [] := rfl
  rw [h0] at hp
  injection hp with hp2
  exact hne hp2.symm

/-! ## C7: encoder -/

/-- Shared helper: whenever every source symbol has a (non-NULL) entry, the
encoder produces the concatenation of the entries in input order and
`get_size` its length. -/
theorem encode_src_flatten (table : codetable) :
    ∀ (src : List Nat), (∀ s ∈ src, table s ≠ none) →
      encode_src table src = some ((src.map fun s => (table s).getD []).flatten) ∧
      get_size table src = some ((src.map fun s => (table s).getD []).flatten).length := by
  intro src
  induction src with
  | nil => exact fun _ => ⟨rfl, rfl⟩
  | cons s rest ih =>
    intro h
    obtain ⟨he, hg⟩ := ih fun x hx => h x (List.mem_cons_of_mem s hx)
    have hn := h s (List.mem_cons_self s rest)
    obtain ⟨c, hc⟩ : ∃ c, table s = some c := by
      cases htab : table s with
      | none => exact absurd htab hn
      | some c => exact ⟨c, rfl⟩
    constructor
    · simp [encode_src, hc, he]
    · simp [get_size, hc, hg]

/-- C7: for every code table and every symbol sequence each of whose symbols
has a non-empty entry, `encode_src` returns the concatenation of the
per-symbol codes in input order, and `get_size` computes exactly the length
of that bit-string. -/
theorem c7_encode_concat (table : codetable) (src : List Nat)
    (h : ∀ s ∈ src, table s ≠ none ∧ table s ≠ some []) :
    ∃ bits, encode_src table src = some bits ∧
      bits = (src.map fun s => (table s).getD []).flatten ∧
      get_size table src = some bits.length := by
  obtain ⟨he, hg⟩ := encode_src_flatten table src fun s hs => (h s hs).1
  exact ⟨_, he, rfl, hg⟩

theorem c7_encode_concat_witness :
    (∀ s ∈ srcEx, htree_to_codetable exTree s ≠ none ∧
      htree_to_codetable exTree s ≠ some []) ∧
      ∃ bits, encode_src (htree_to_codetable exTree) srcEx = some bits ∧
        bits = (srcEx.map fun s => (htree_to_codetable exTree s).getD []).flatten ∧
        get_size (htree_to_codetable exTree) srcEx = some bits.length :=
  ⟨by decide, c7_encode_concat (htree_to_codetable exTree) srcEx (by decide)⟩

/-! ## Packing lemmas -/

theorem pack_byte_go_eq_pbv :
    ∀ (s : List Char) (j p b : Nat), pack_byte_go s j p b = b + pbv s j p := by
  intro s
  induction s with
  | nil => intro j p b; cases j <;> simp [pack_byte_go, pbv]
  | cons c cs ih =>
    intro j p b
    cases j with
    | zero => simp [pack_byte_go, pbv]
    | succ j =>
      simp only [pack_byte_go, pbv, ih]
      omega

theorem two_pow_succ_div_two (j : Nat) : (2 : Nat) ^ (j + 1) / 2 = 2 ^ j := by
  rw [pow_succ]
  exact Nat.mul_div_cancel _ (by norm_num)

theorem pbv_lt : ∀ (s : List Char) (j : Nat), pbv s j (2 ^ j / 2) < 2 ^ j := by
  intro s
  induction s with
  | nil =>
    intro j
    cases j with
    | zero => simp [pbv]
    | succ j =>
      simp only [pbv]
      positivity
  | cons c cs ih =>
    intro j
    cases j with
    | zero => simp [pbv]
    | succ j =>
      have hp : (2 : Nat) ^ (j + 1) = 2 ^ j + 2 ^ j := by rw [pow_succ]; omega
      simp only [pbv, two_pow_succ_div_two]
      have := ih j
      split <;> omega

/-- Bit `j - 1 - i` of the packed value is character `i` of the consumed
block (a character other than '1' packs as 0). -/
theorem pbv_div_mod :
    ∀ (j : Nat) (s : List Char) (i : Nat), i < j →
      pbv s j (2 ^ j / 2) / 2 ^ (j - 1 - i) % 2 =
        if s.getD i '0' = '1' then 1 else 0 := by
  intro j
  induction j with
  | zero => intro s i hi; omega
  | succ j ih =>
    intro s i hi
    cases s with
    | nil =>
      simp [pbv, List.getD_nil]
    | cons c cs =>
      simp only [pbv, two_pow_succ_div_two]
      have hlo := pbv_lt cs j
      cases i with
      | zero =>
        rw [show j + 1 - 1 - 0 = j by omega]
        rw [List.getD_cons_zero]
        by_cases hc : c = '1'
        · rw [if_pos hc, if_pos hc, add_comm,
            Nat.add_div_right _ (Nat.two_pow_pos j), Nat.div_eq_of_lt hlo]
        · rw [if_neg hc, if_neg hc, zero_add, Nat.div_eq_of_lt hlo]
      | succ i =>
        have hi2 : i < j := by omega
        rw [show j + 1 - 1 - (i + 1) = j - 1 - i by omega]
        rw [List.getD_cons_succ]
        by_cases hc : c = '1'
        · rw [if_pos hc]
          have hsplit : (2 : Nat) ^ j = 2 ^ (i + 1) * 2 ^ (j - 1 - i) := by
            rw [← pow_add]
            congr 1
            omega
          nth_rewrite 1 [hsplit]
          rw [add_comm, Nat.add_mul_div_right _ _ (Nat.two_pow_pos (j - 1 - i)),
            pow_succ, Nat.add_mul_mod_self_right]
          exact ih cs i hi2
        · rw [if_neg hc, zero_add]
          exact ih cs i hi2

theorem getD_binary {s : List Char} (hb : ∀ c ∈ s, c = '0' ∨ c = '1') (i : Nat) :
    s.getD i '0' = '0' ∨ s.getD i '0' = '1' := by
  by_cases hi : i < s.length
  · rw [List.getD_eq_getElem s '0' hi]
    exact hb _ (List.getElem_mem hi)
  · rw [List.getD_eq_default s '0' (by omega)]
    exact Or.inl rfl

theorem byte2bit_pbv (s : List Char) (hb : ∀ c ∈ s, c = '0' ∨ c = '1') :
    byte2bit (pbv s 8 (2 ^ 8 / 2)) = (List.range 8).map fun i => s.getD i '0' := by
  unfold byte2bit
  apply List.map_congr_left
  intro i hi
  have hi8 : i < 8 := List.mem_range.mp hi
  rw [Nat.shiftRight_eq_div_pow, Nat.and_one_is_mod]
  rw [show 8 - i - 1 = 8 - 1 - i by omega]
  rw [pbv_div_mod 8 s i hi8]
  rcases getD_binary hb i with h | h <;> rw [h] <;> simp

theorem range_map_getD (s : List Char) :
    ∀ n : Nat, ((List.range n).map fun i => s.getD i '0') =
      s.take n ++ List.replicate (n - s.length) '0' := by
  intro n
  induction n with
  | zero => simp
  | succ n ih =>
    rw [List.range_succ, List.map_append, ih]
    simp only [List.map_cons, List.map_nil]
    by_cases hn : n < s.length
    · rw [List.getD_eq_getElem s '0' hn]
      rw [show n + 1 - s.length = 0 by omega, show n - s.length = 0 by omega]
      rw [List.take_succ, List.getElem?_eq_getElem hn]
      simp
    · rw [List.getD_eq_default s '0' (by omega)]
      rw [List.take_of_length_le (by omega), List.take_of_length_le (by omega)]
      rw [show n + 1 - s.length = (n - s.length) + 1 by omega]
      rw [List.replicate_succ' (n - s.length) '0']
      simp

/-- One full step of `populate_byte_array`: unpacking the byte packed from a
block reproduces the first 8 characters of the block, zero-padded if the
block is shorter than 8. -/
theorem byte2bit_pack_block (s : List Char) (hb : ∀ c ∈ s, c = '0' ∨ c = '1') :
    byte2bit (pack_byte_go s 8 128 0) =
      s.take 8 ++ List.replicate (8 - s.length) '0' := by
  rw [pack_byte_go_eq_pbv, zero_add, show (128 : Nat) = 2 ^ 8 / 2 by norm_num]
  rw [byte2bit_pbv s hb, range_map_getD s 8]

theorem get_res_len_succ (n : Nat) (h : 0 < n) :
    get_res_len n = get_res_len (n - 8) + 1 := by
  unfold get_res_len
  split <;> split <;> omega

theorem pack_eq_cons (s : List Char) (hs : 0 < s.length) :
    pack s = pack_byte_go s 8 128 0 :: pack (s.drop 8) := by
  unfold pack populate_byte_array
  rw [get_res_len_succ s.length hs, List.length_drop, List.range_succ_eq_map,
    List.map_cons]
  congr 1
  rw [List.map_map]
  apply List.map_congr_left
  intro i hi
  simp only [Function.comp_apply]
  rw [show (i + 1) * 8 = 8 + i * 8 by ring, ← List.drop_drop]

theorem unpack_cons (b : Nat) (bs : List Nat) :
    unpack (b :: bs) = byte2bit b ++ unpack bs := by
  simp [unpack]

theorem unpack_pack_aux :
    ∀ (n : Nat) (s : List Char), s.length ≤ n → (∀ c ∈ s, c = '0' ∨ c = '1') →
      unpack (pack s) = s ++ List.replicate (8 * get_res_len s.length - s.length) '0' := by
  intro n
  induction n with
  | zero =>
    intro s hs _
    have h : s = [] := List.eq_nil_of_length_eq_zero (by omega)
    subst h
    rfl
  | succ n ih =>
    intro s hs hb
    by_cases h0 : s.length = 0
    · have h : s = [] := List.eq_nil_of_length_eq_zero h0
      subst h
      rfl
    · have hpos : 0 < s.length := by omega
      rw [pack_eq_cons s hpos, unpack_cons, byte2bit_pack_block s hb]
      have hdb : ∀ c ∈ s.drop 8, c = '0' ∨ c = '1' := fun c hc => hb c (List.mem_of_mem_drop hc)
      rw [ih (s.drop 8) (by rw [List.length_drop]; omega) hdb]
      rw [List.length_drop, get_res_len_succ s.length hpos]
      rcases Nat.lt_or_ge s.length 8 with h8 | h8
      · have hd : s.drop 8 = [] := List.drop_eq_nil_of_le (by omega)
        have hga : get_res_len (s.length - 8) = 0 := by
          rw [show s.length - 8 = 0 by omega]
          rfl
        rw [hd, hga, List.take_of_length_le (by omega)]
        rw [show 8 * (0 + 1) - s.length = 8 - s.length by omega]
        simp
      · have h80 : 8 - s.length = 0 := by omega
        rw [h80]
        simp only [List.replicate_zero, List.append_nil]
        rw [← List.append_assoc, List.take_append_drop]
        rw [show 8 * (get_res_len (s.length - 8) + 1) - s.length =
          8 * get_res_len (s.length - 8) - (s.length - 8) by omega]

/-! ## C3: pack/unpack round trip -/

/-- C3: for every '0'/'1' bit-string `s`, unpacking the packed byte array
(of `ceil(len(s)/8)` bytes) gives `s` right-padded with '0' up to the next
multiple of 8: the result is never shorter than `s` and its first `len(s)`
characters equal `s`. -/
theorem c3_unpack_pack_roundtrip (s : List Char) (hb : ∀ c ∈ s, c = '0' ∨ c = '1') :
    unpack (pack s) = s ++ List.replicate (8 * get_res_len s.length - s.length) '0' ∧
    s.length ≤ (unpack (pack s)).length ∧
    (unpack (pack s)).take s.length = s := by
  have h := unpack_pack_aux s.length s le_rfl hb
  refine ⟨h, ?_, ?_⟩
  · rw [h]
    simp
  · rw [h]
    exact List.take_left s _

theorem c3_unpack_pack_roundtrip_witness :
    (∀ c ∈ bitsEx, c = '0' ∨ c = '1') ∧
      (unpack (pack bitsEx) =
        bitsEx ++ List.replicate (8 * get_res_len bitsEx.length - bitsEx.length) '0' ∧
      bitsEx.length ≤ (unpack (pack bitsEx)).length ∧
      (unpack (pack bitsEx)).take bitsEx.length = bitsEx) :=
  ⟨by decide, c3_unpack_pack_roundtrip bitsEx (by decide)⟩

/-! ## C8: pack byte layout -/

theorem pbv_sum : ∀ (j : Nat) (s : List Char),
    pbv s j (2 ^ j / 2) =
      ∑ k in Finset.range j, if s.getD k '0' = '1' then 2 ^ (j - 1 - k) else 0 := by
  intro j
  induction j with
  | zero => intro s; cases s <;> simp [pbv]
  | succ j ih =>
    intro s
    cases s with
    | nil =>
      simp [pbv, List.getD_nil]
    | cons c cs =>
      simp only [pbv, two_pow_succ_div_two]
      rw [Finset.sum_range_succ', ih cs]
      simp only [List.getD_cons_succ, List.getD_cons_zero]
      rw [add_comm]
      congr 1
      apply Finset.sum_congr rfl
      intro k hk
      rw [show j + 1 - 1 - (k + 1) = j - 1 - k by omega]

theorem getD_drop (l : List Char) (m k : Nat) (d : Char) :
    (l.drop m).getD k d = l.getD (m + k) d := by
  rw [List.getD_eq_getElem?_getD, List.getD_eq_getElem?_getD, List.getElem?_drop]

/-- C8: for every '0'/'1' bit-string, `pack` returns exactly
`ceil(length / 8)` bytes; output byte `i` places the first consumed character
at value 128 and each subsequent one at the next lower bit position, with
unconsumed positions 0 (`msb_byte`); in particular packing "000101011" yields
the bytes 0x15 and 0x80. -/
theorem c8_pack_msb_layout (s : List Char) (hb : ∀ c ∈ s, c = '0' ∨ c = '1') :
    (pack s).length = (s.length + 7) / 8 ∧
    pack s = (List.range ((s.length + 7) / 8)).map (msb_byte s) ∧
    pack bitsEx = [21, 128] := by
  have hceil : get_res_len s.length = (s.length + 7) / 8 := by
    unfold get_res_len
    split <;> omega
  refine ⟨?_, ?_, rfl⟩
  · unfold pack populate_byte_array
    simp [hceil]
  · unfold pack populate_byte_array
    rw [hceil]
    apply List.map_congr_left
    intro i hi
    rw [pack_byte_go_eq_pbv, zero_add, show (128 : Nat) = 2 ^ 8 / 2 by norm_num, pbv_sum]
    unfold msb_byte
    apply Finset.sum_congr rfl
    intro k hk
    rw [show (8 : Nat) - 1 - k = 7 - k by omega]
    rw [getD_drop, show i * 8 + k = 8 * i + k by ring]

theorem c8_pack_msb_layout_witness :
    (∀ c ∈ bitsEx, c = '0' ∨ c = '1') ∧
      ((pack bitsEx).length = (bitsEx.length + 7) / 8 ∧
        pack bitsEx = (List.range ((bitsEx.length + 7) / 8)).map (msb_byte bitsEx) ∧
        pack bitsEx = [21, 128]) :=
  ⟨by decide, c8_pack_msb_layout bitsEx (by decide)⟩

/-! ## Builder lemmas -/

theorem remMin_perm (h : htree) (t : List htree) :
    ((remMin h t).1 :: (remMin h t).2).Perm (h :: t) := by
  induction t generalizing h with
  | nil => exact List.Perm.refl _
  | cons x xs ih =>
    simp only [remMin]
    split
    · exact (List.Perm.swap h (remMin x xs).1 (remMin x xs).2).trans ((ih x).cons h)
    · exact List.Perm.refl _

theorem mkRoot_wf {t1 t2 : htree} (h1 : is_htree t1 = true) (h2 : is_htree t2 = true) :
    is_htree (mkRoot t1 t2) = true := by
  have hc : t2.frequency + t1.frequency = t1.frequency + t2.frequency := Nat.add_comm _ _
  unfold mkRoot
  split
  · simp [is_htree, h1, h2]
  · simp [is_htree, h1, h2, hc]

theorem queueMS_cons (x : htree) (q : List htree) :
    queueMS (x :: q) = leafMS x + queueMS q := by
  simp [queueMS]

theorem queueMS_append (q1 q2 : List htree) :
    queueMS (q1 ++ q2) = queueMS q1 + queueMS q2 := by
  simp [queueMS]

theorem queueMS_singleton (x : htree) : queueMS [x] = leafMS x := by
  simp [queueMS]

theorem queueMS_perm {q q1 : List htree} (h : q.Perm q1) : queueMS q = queueMS q1 :=
  (h.map leafMS).sum_eq

theorem mkRoot_leafMS {t1 t2 : htree} (h1 : t1 ≠ htree.null) (h2 : t2 ≠ htree.null) :
    leafMS (mkRoot t1 t2) = leafMS t1 + leafMS t2 := by
  unfold mkRoot leafMS
  split
  · rw [leafSyms_node h1]
    exact Multiset.coe_add _ _
  · rw [leafSyms_node h2, Multiset.coe_add]
    exact add_comm ((leafSyms t2 : Multiset Nat)) ((leafSyms t1 : Multiset Nat))

/-- The merge loop returns a well-formed tree carrying exactly the leaf
symbols of the queue it started from. -/
theorem build_loop_spec :
    ∀ (n : Nat) (q : List htree), q.length ≤ n → q ≠ [] →
      (∀ x ∈ q, is_htree x = true) →
      is_htree (build_loop q) = true ∧ leafMS (build_loop q) = queueMS q := by
  intro n
  induction n with
  | zero =>
    intro q hlen hne _
    cases q with
    | nil => exact absurd rfl hne
    | cons h t => simp at hlen
  | succ n ih =>
    intro q hlen hne hwf
    cases q with
    | nil => exact absurd rfl hne
    | cons h t =>
      rw [build_loop]
      split
      next tree1 heq =>
        have hp := remMin_perm h t
        rw [heq] at hp
        simp only at hp
        constructor
        · exact hwf tree1 (hp.mem_iff.mp (List.mem_cons_self _ _))
        · rw [queueMS_perm hp.symm]
          simp [queueMS_cons, queueMS]
      next tree1 h1 t1 heq =>
        split
        next tree2 q2 heq2 =>
          have hp := remMin_perm h t
          rw [heq] at hp
          simp only at hp
          have hp2 := remMin_perm h1 t1
          rw [heq2] at hp2
          simp only at hp2
          have hw1 : is_htree tree1 = true :=
            hwf tree1 (hp.mem_iff.mp (List.mem_cons_self _ _))
          have hmem2 : tree2 ∈ h :: t := by
            apply hp.mem_iff.mp
            apply List.mem_cons_of_mem
            exact hp2.mem_iff.mp (List.mem_cons_self _ _)
          have hw2 : is_htree tree2 = true := hwf tree2 hmem2
          have hwq2 : ∀ x ∈ q2, is_htree x = true := by
            intro x hx
            apply hwf
            apply hp.mem_iff.mp
            apply List.mem_cons_of_mem
            apply hp2.mem_iff.mp
            exact List.mem_cons_of_mem _ hx
          have hl1 : (h1 :: t1).length = t.length := by
            have e := remMin_snd_length h t
            rw [heq] at e
            exact e
          have hl2 : q2.length = t1.length := by
            have e := remMin_snd_length h1 t1
            rw [heq2] at e
            exact e
          have hlen2 : (q2 ++ [mkRoot tree1 tree2]).length ≤ n := by
            simp only [List.length_append, List.length_cons, List.length_nil] at *
            omega
          obtain ⟨hwr, hms⟩ := ih (q2 ++ [mkRoot tree1 tree2]) hlen2 (by simp)
            (by
              intro x hx
              rcases List.mem_append.mp hx with h3 | h3
              · exact hwq2 x h3
              · rw [List.mem_singleton.mp h3]
                exact mkRoot_wf hw1 hw2)
          refine ⟨hwr, ?_⟩
          rw [hms, queueMS_append, queueMS_singleton,
            mkRoot_leafMS (wf_ne_null hw1) (wf_ne_null hw2),
            queueMS_perm hp.symm, queueMS_cons, queueMS_perm hp2.symm, queueMS_cons]
          abel

theorem nonzeroSymbols_mem (table : Nat → Nat) (s : Nat) :
    s ∈ nonzeroSymbols table ↔ s < NUM_SYMBOLS ∧ 0 < table s := by
  simp [nonzeroSymbols, List.mem_filter, List.mem_range]

theorem build_pq_wf (table : Nat → Nat) : ∀ x ∈ build_pq table, is_htree x = true := by
  intro x hx
  rw [build_pq_eq_map] at hx
  obtain ⟨i, hi, rfl⟩ := List.mem_map.mp hx
  have hpos : 0 < table i := ((nonzeroSymbols_mem table i).mp hi).2
  simp [is_htree, is_htree_leaf, hpos]

theorem build_pq_queueMS (table : Nat → Nat) :
    queueMS (build_pq table) = (nonzeroSymbols table : Multiset Nat) := by
  rw [build_pq_eq_map]
  induction nonzeroSymbols table with
  | nil => rfl
  | cons i l ih =>
    simp only [List.map_cons, queueMS_cons, ih]
    have hl : leafMS (htree.mk i (table i) htree.null htree.null) = ({i} : Multiset Nat) := rfl
    rw [hl, Multiset.singleton_add]
    rfl

/-- Shared helper: with at least two nonzero-frequency symbols, `build_htree`
succeeds, and its result is well-formed and carries exactly the
nonzero-frequency symbols at its leaves. -/
theorem build_spec (table : Nat → Nat) (h2 : 2 ≤ (nonzeroSymbols table).length) :
    build_htree table = Except.ok (build_loop (build_pq table)) ∧
    is_htree (build_loop (build_pq table)) = true ∧
    (leafSyms (build_loop (build_pq table))).Perm (nonzeroSymbols table) := by
  have hq := build_pq_length table
  have hne : build_pq table ≠ [] := by
    intro h0
    rw [h0] at hq
    simp at hq
    omega
  obtain ⟨hwf, hms⟩ :=
    build_loop_spec (build_pq table).length (build_pq table) le_rfl hne (build_pq_wf table)
  refine ⟨?_, hwf, ?_⟩
  · simp only [build_htree]
    rw [if_neg (by omega)]
  · rw [build_pq_queueMS] at hms
    exact Multiset.coe_eq_coe.mp hms

/-! ## C2: builder invariants -/

/-- C2: every tree returned by `build_htree` from a table with at least 2
nonzero-frequency symbols satisfies `is_htree` (recursively: interior
frequencies are the sums of their children's, leaf frequencies are strictly
positive), and its leaf symbols are exactly the symbols with nonzero
frequency in the table (as a permutation, hence also as a set). -/
theorem c2_build_htree_invariants (table : Nat → Nat)
    (h2 : 2 ≤ (nonzeroSymbols table).length) :
    ∃ t, build_htree table = Except.ok t ∧ is_htree t = true ∧
      (leafSyms t).Perm (nonzeroSymbols table) ∧
      ∀ s, s ∈ leafSyms t ↔ (s < NUM_SYMBOLS ∧ 0 < table s) := by
  obtain ⟨hok, hwf, hperm⟩ := build_spec table h2
  refine ⟨_, hok, hwf, hperm, ?_⟩
  intro s
  rw [hperm.mem_iff]
  exact nonzeroSymbols_mem table s

theorem c2_build_htree_invariants_witness :
    2 ≤ (nonzeroSymbols tableEx).length ∧
      ∃ t, build_htree tableEx = Except.ok t ∧ is_htree t = true ∧
        (leafSyms t).Perm (nonzeroSymbols tableEx) ∧
        ∀ s, s ∈ leafSyms t ↔ (s < NUM_SYMBOLS ∧ 0 < tableEx s) :=
  ⟨by decide, c2_build_htree_invariants tableEx (by decide)⟩

/-! ## C1: coding round trip -/

/-- Length pass over a concatenation of codes, each leading from the root to
a leaf: every code advances the counter by exactly one. -/
theorem find_len_flatten (H : htree) (code_of : Nat → List Char) :
    ∀ (src : List Nat),
      (∀ s ∈ src, ∃ ℓ, follow H (code_of s) = ℓ ∧ is_htree_leaf ℓ = true ∧
        ℓ.value = s ∧ code_of s ≠ []) →
      ∀ res, find_len_go H H ((src.map code_of).flatten) res =
        Except.ok (res + src.length) := by
  intro src
  induction src with
  | nil => intro _ res; simp [find_len_go]
  | cons s rest ih =>
    intro h res
    obtain ⟨ℓ, hfol, hl, hv, hne⟩ := h s (List.mem_cons_self s rest)
    simp only [List.map_cons, List.flatten_cons]
    rw [walk_code_find H (code_of s) H ℓ _ res hfol hl hne]
    rw [ih (fun x hx => h x (List.mem_cons_of_mem s hx)) (res + 1)]
    congr 1
    simp only [List.length_cons]
    omega

/-- Emit pass over a concatenation of codes: each code appends its leaf's
symbol, which is the corresponding source symbol. -/
theorem parse_code_flatten (H : htree) (code_of : Nat → List Char) :
    ∀ (src : List Nat),
      (∀ s ∈ src, ∃ ℓ, follow H (code_of s) = ℓ ∧ is_htree_leaf ℓ = true ∧
        ℓ.value = s ∧ code_of s ≠ []) →
      ∀ acc, parse_code_go H H ((src.map code_of).flatten) acc =
        Except.ok (acc ++ src) := by
  intro src
  induction src with
  | nil => intro _ acc; simp [parse_code_go]
  | cons s rest ih =>
    intro h acc
    obtain ⟨ℓ, hfol, hl, hv, hne⟩ := h s (List.mem_cons_self s rest)
    simp only [List.map_cons, List.flatten_cons]
    rw [walk_code_parse H (code_of s) H ℓ _ acc hfol hl hne]
    rw [hv]
    rw [ih (fun x hx => h x (List.mem_cons_of_mem s hx)) (acc ++ [s])]
    simp

/-- C1: for every frequency table with at least 2 nonzero-frequency symbols
and every symbol sequence drawn from the nonzero-frequency symbols, decoding
the encoding recovers the sequence exactly: `decode_src` applied to the tree
built by `build_htree` and to the bit-string produced by `encode_src` from
`htree_to_codetable` of that tree returns the original sequence, with the
decoded length equal to the sequence's length. -/
theorem c1_decode_encode_roundtrip (table : Nat → Nat) (src : List Nat)
    (h2 : 2 ≤ (nonzeroSymbols table).length)
    (hsrc : ∀ s ∈ src, s < NUM_SYMBOLS ∧ 0 < table s) :
    ∃ t bits, build_htree table = Except.ok t ∧
      encode_src (htree_to_codetable t) src = some bits ∧
      decode_src t bits = Except.ok (src, src.length) := by
  obtain ⟨hok, hwf, hperm⟩ := build_spec table h2
  set t := build_loop (build_pq table) with ht
  have hlen2 : 2 ≤ (leafSyms t).length := by
    rw [hperm.length_eq]
    exact h2
  have hnl : is_htree_leaf t = false := not_leaf_of_leafSyms hwf hlen2
  have hentry : ∀ s ∈ src, ∃ p ℓ, htree_to_codetable t s = some p ∧
      follow t p = ℓ ∧ is_htree_leaf ℓ = true ∧ ℓ.value = s := by
    intro s hs
    have hsmem : s ∈ leafSyms t := by
      rw [hperm.mem_iff, nonzeroSymbols_mem]
      exact hsrc s hs
    exact codetable_covers t hwf s hsmem
  have hnn : ∀ s ∈ src, htree_to_codetable t s ≠ none := by
    intro s hs
    obtain ⟨p, ℓ, hp, -⟩ := hentry s hs
    rw [hp]
    intro hc
    cases hc
  have hcode : ∀ s ∈ src, ∃ ℓ,
      follow t ((htree_to_codetable t s).getD []) = ℓ ∧ is_htree_leaf ℓ = true ∧
      ℓ.value = s ∧ (htree_to_codetable t s).getD [] ≠ [] := by
    intro s hs
    obtain ⟨p, ℓ, hp, hfol, hl, hv⟩ := hentry s hs
    rw [hp]
    exact ⟨ℓ, hfol, hl, hv, follow_nonnil_of_interior hnl hfol hl⟩
  obtain ⟨henc, -⟩ := encode_src_flatten (htree_to_codetable t) src hnn
  refine ⟨t, _, hok, henc, ?_⟩
  have hfind : find_len t ((src.map fun s => (htree_to_codetable t s).getD []).flatten) =
      Except.ok src.length := by
    unfold find_len
    rw [find_len_flatten t _ src hcode 0]
    rw [Nat.zero_add]
  have hparse : parse_code t ((src.map fun s => (htree_to_codetable t s).getD []).flatten) =
      Except.ok src := by
    unfold parse_code
    rw [parse_code_flatten t _ src hcode []]
    rw [List.nil_append]
  unfold decode_src
  rw [hfind, hparse]
  simp

theorem c1_decode_encode_roundtrip_witness :
    2 ≤ (nonzeroSymbols tableEx).length ∧
      (∀ s ∈ srcEx, s < NUM_SYMBOLS ∧ 0 < tableEx s) ∧
      ∃ t bits, build_htree tableEx = Except.ok t ∧
        encode_src (htree_to_codetable t) srcEx = some bits ∧
        decode_src t bits = Except.ok (srcEx, srcEx.length) :=
  ⟨by decide, by decide, c1_decode_encode_roundtrip tableEx srcEx (by decide) (by decide)⟩

end Huffman
